import Mathlib

/-!
Verification of the yajsml module server (server.js / associators.js).

This file shallowly embeds the parts of the source that the claims are
about: the caching-header merge (mergeHeaders), the conditional check
(notModified), the relative-path computation (relativePath), the bundle
packager (packagedDefine with escapeNonAlphanumerics), the three
Associator variants (Identity, Simple, Static and the association-table
construction associationsForSimpleMapping with alias resolution), and
the bundle branch of Server.handle (redirect decision, HEAD fan-out
merge, GET fan-out, final status computation).

Modelling conventions:
* JavaScript header values are modelled by their Date.parse result: a
  header is absent, an unparseable string, or a string parsing to a
  timestamp in milliseconds (HDate.val t).  Date.toUTCString renders at
  whole-second precision, so re-parsing a rendered date floors the
  timestamp to a multiple of 1000 (jsUTC).
* JavaScript objects and Maps are modelled as association lists with
  JS assignment semantics: updating an existing key keeps its position
  and replaces the value, a fresh key is appended (aset).  Key order of
  the model is insertion order; the JS reordering of integer-like keys
  is outside the model (module paths are non-numeric strings).
* Thrown exceptions are modelled with Except / Option none.
-/

set_option maxRecDepth 4000

/-- Association-list lookup, modelling JS object property read /
Map.get: the first pair whose key matches. -/
def aget {α : Type} : List (String × α) → String → Option α
  | [], _ => none
  | (k, v) :: rest, key => if k == key then some v else aget rest key

/-- Association-list update, modelling JS object property write /
Map.set: an existing key keeps its position and gets the new value, a
fresh key is appended at the end. -/
def aset {α : Type} : List (String × α) → String → α → List (String × α)
  | [], key, v => [(key, v)]
  | (k, w) :: rest, key, v =>
    if k == key then (k, v) :: rest else (k, w) :: aset rest key v

/-- Object.fromEntries: inserts the pairs left to right with JS object
assignment semantics (duplicate keys collapse to one entry that keeps
the first occurrence's position and the last occurrence's value). -/
def jsFromEntries {α : Type} (l : List (String × α)) : List (String × α) :=
  l.foldl (fun acc pr => aset acc pr.1 pr.2) []

/-- A date-valued header, identified with its Date.parse result:
absent (Date.parse(undefined) is NaN), an unparseable string (NaN), or
a string parsing to t milliseconds since the epoch. -/
inductive HDate where
  | absent
  | bad
  | val (t : Int)
deriving DecidableEq, Repr

/-- Date.parse of a date-valued header, none standing for NaN. -/
def dateParse : HDate → Option Int
  | .absent => none
  | .bad => none
  | .val t => some t

/-- A cache-control header value, identified with the result of the
max-age extraction in mergeHeaders: the regex match of
max-age=(digits)? captures only when the value starts with
max-age=<digits>, and parseInt of the capture yields n. -/
inductive CC where
  | absent
  | bad
  | maxAge (n : Nat)
deriving DecidableEq, Repr

/-- parseInt of the max-age capture, none standing for NaN. -/
def ccParse : CC → Option Nat
  | .absent => none
  | .bad => none
  | .maxAge n => some n

/-- A response header set restricted to the headers the server reads or
writes: the four merged caching headers plus content-type and etag. -/
structure RHeaders where
  date : HDate := .absent
  lastModified : HDate := .absent
  expires : HDate := .absent
  cacheControl : CC := .absent
  contentType : Option String := none
  etag : Option String := none
deriving DecidableEq, Repr

/-- The request headers the server consults: if-modified-since and etag
(notModified) and cache-control (forwarded only). -/
structure RqHeaders where
  ifModifiedSince : HDate := .absent
  etag : Option String := none
  cacheControl : CC := .absent
deriving DecidableEq, Repr

/-- First clause of notModified:
requestHeaders.etag && requestHeaders.etag === responseHeaders.etag.
An absent or empty request etag is falsy. -/
def etagClauseHolds (req : RqHeaders) (res : RHeaders) : Bool :=
  match req.etag with
  | some s => (s != "") && (res.etag == some s)
  | none => false

/-- Second clause of notModified:
lastModified && lastModified <= modifiedSince, where both sides are
Date.parse results.  NaN is falsy and incomparable; a parse result of
exactly 0 (the epoch) is falsy as well. -/
def lmClauseHolds (req : RqHeaders) (res : RHeaders) : Bool :=
  match dateParse res.lastModified, dateParse req.ifModifiedSince with
  | some lm, some ms => (lm != 0) && decide (lm ≤ ms)
  | _, _ => false

/-- notModified from server.js: true iff the etag clause or the
last-modified clause is truthy. -/
def notModified (req : RqHeaders) (res : RHeaders) : Bool :=
  etagClauseHolds req res || lmClauseHolds req res

/-- values.every((value) => !isNaN(value)): collect all parse results,
none if any is NaN. -/
def allVals {α : Type} : List (Option α) → Option (List α)
  | [] => some []
  | none :: _ => none
  | some v :: rest => (allVals rest).map (v :: ·)

/-- Date.toUTCString composed with Date.parse: rendering a timestamp as
an HTTP date keeps whole seconds only, flooring toward minus infinity
(for the positive divisor 1000, Euclidean division is floor division). -/
def jsUTC (t : Int) : HDate :=
  .val (1000 * Int.ediv t 1000)

/-- One merged date-valued header: present iff every contributing value
parses; Math.max / Math.min of no values is infinite, rendering as an
unparseable "Invalid Date" (the .bad case, reachable only for an empty
header-set list). -/
def mergeDateWith (pick : Int → Int → Int) (vals : List (Option Int)) : HDate :=
  match allVals vals with
  | none => .absent
  | some [] => .bad
  | some (v :: vs) => jsUTC (vs.foldl pick v)

/-- The merged cache-control header: present iff every contributing
value starts with max-age=<digits>; the minimum max-age wins.  With no
values Math.min is Infinity and max-age=Infinity does not re-parse. -/
def mergeCC (vals : List (Option Nat)) : CC :=
  match allVals vals with
  | none => .absent
  | some [] => .bad
  | some (v :: vs) => .maxAge (vs.foldl min v)

/-- mergeHeaders from server.js: the composition of HEAD responses.
date and last-modified take the latest value, expires the earliest,
cache-control the smallest max-age; each is present only when every
input supplies a parseable value.  etag and content-type are never
produced. -/
def mergeHeaders (hs : List RHeaders) : RHeaders :=
  { date := mergeDateWith max (hs.map (fun h => dateParse h.date))
    lastModified := mergeDateWith max (hs.map (fun h => dateParse h.lastModified))
    expires := mergeDateWith min (hs.map (fun h => dateParse h.expires))
    cacheControl := mergeCC (hs.map (fun h => ccParse h.cacheControl))
    contentType := none
    etag := none }

/-- Splitting a character list on the slash character, the semantics
of JS String.split("/") (written structurally so that proofs can
evaluate it): the empty string splits to one empty piece. -/
def splitCharsAux : List Char → List (List Char)
  | [] => [[]]
  | c :: rest =>
    match splitCharsAux rest with
    | [] => [[]]
    | g :: gs => if c = '/' then [] :: g :: gs else (c :: g) :: gs

/-- s.split("/") as a list of strings. -/
def splitSlash (s : String) : List String :=
  (splitCharsAux s.toList).map (fun cs => String.mk cs)

/-- JS path.charAt(0) === "/" (the empty string's charAt is ""). -/
def startsWithSlash (s : String) : Bool :=
  match s.toList with
  | '/' :: _ => true
  | _ => false

/-- The common-prefix stripping loop of relativePath:
while (fromSplit.length !== 0 && fromSplit[0] === toSplit[0]) shift both
(an exhausted toSplit yields undefined, which matches no string). -/
def stripCommon : List String → List String → List String × List String
  | [], ts => ([], ts)
  | f :: fs, [] => (f :: fs, [])
  | f :: fs, t :: ts =>
    if f = t then stripCommon fs ts else (f :: fs, t :: ts)

/-- relativePath from server.js: treat from as a file in its parent
directory (drop its last segment), treat to likewise (pop and re-push
its last segment), strip the common leading segments, then go up once
per remaining from segment.  The empty result is replaced by "./". -/
def relativePath (fromPath toPath : String) : String :=
  let fromSplit := (splitSlash fromPath).dropLast
  let toParts := splitSlash toPath
  let toFile := toParts.getLastD ""
  let toSplit := toParts.dropLast
  let (fs, ts) := stripCommon fromSplit toSplit
  let relative :=
    String.join (List.replicate fs.length "../") ++
      String.intercalate "/" (ts ++ [toFile])
  if relative = "" then "./" else relative

/-- Modelled from the spec: RFC 3986 dot-segment removal over a segment
stack, used to state that a relative reference reconstructs the target
when resolved against the base (the repository resolves with new URL,
which is not part of src/). -/
def dotSegs : List String → List String → List String
  | stack, [] => stack
  | stack, "." :: rest => dotSegs stack rest
  | stack, ".." :: rest => dotSegs stack.dropLast rest
  | stack, s :: rest => dotSegs (stack ++ [s]) rest

/-- Modelled from the spec: resolution of a relative reference against
an absolute base path, per RFC 3986 merge plus dot-segment removal;
this is the semantics of new URL(rel, base) restricted to paths. -/
def resolveRel (base rel : String) : String :=
  let segs :=
    if startsWithSlash rel then (splitSlash rel).drop 1
    else ((splitSlash base).drop 1).dropLast ++ splitSlash rel
  "/" ++ String.intercalate "/" (dotSegs [] segs)

/-- A member entry of a bundle list: a plain module path, or an Alias
instance carrying an alias name and a target path. -/
inductive MEntry where
  | mod (name : String)
  | alias (source target : String)
deriving DecidableEq, Repr

/-- module instanceof Alias ? module.alias : module -/
def MEntry.name : MEntry → String
  | .mod s => s
  | .alias a _ => a

/-- module instanceof Alias ? module.target : null -/
def MEntry.target : MEntry → Option String
  | .mod _ => none
  | .alias _ t => some t

/-- A simple mapping: bundle path to member entries, in object key
order (keys of a JS object literal are unique). -/
def SimpleMapping := List (String × List MEntry)

/-- State threaded through the first loop of
associationsForSimpleMapping. -/
structure P1 where
  b2m : List (String × List MEntry)
  m2b : List (String × String)
  ind : List (String × Option String)

/-- Body of the inner loop of associationsForSimpleMapping: register
the member in the indirections map (throwing on a conflicting
redefinition), and record plain members in moduleToBundle unless they
name a different bundle of the mapping. -/
def phase1Module (mapping : SimpleMapping) (bundle : String) (st : P1) (m : MEntry) :
    Except String P1 :=
  let moduleName := m.name
  let targetName := m.target
  if (match aget st.ind moduleName with
      | some t0 => t0 != targetName
      | none => false) then
    .error ("conflicting definition of module " ++ moduleName)
  else
    let ind := aset st.ind moduleName targetName
    match m with
    | .alias _ _ => .ok { st with ind }
    | .mod _ =>
      if (aget mapping moduleName).isNone ∨ moduleName = bundle then
        .ok { st with ind, m2b := aset st.m2b moduleName bundle }
      else
        .ok { st with ind }

/-- Inner loop of the first phase, over one bundle's member list. -/
def p1Modules (mapping : SimpleMapping) (bundle : String) :
    P1 → List MEntry → Except String P1
  | st, [] => .ok st
  | st, m :: ms =>
    match phase1Module mapping bundle st m with
    | .error e => .error e
    | .ok st₁ => p1Modules mapping bundle st₁ ms

/-- Outer loop of the first phase, over the mapping's entries: a
duplicate bundle key throws. -/
def p1Bundles (mapping : SimpleMapping) : P1 → SimpleMapping → Except String P1
  | st, [] => .ok st
  | st, (bundle, modules) :: rest =>
    if (aget st.b2m bundle).isSome then
      .error ("bundle \"" ++ bundle ++ "\" already defined")
    else
      match p1Modules mapping bundle { st with b2m := aset st.b2m bundle modules } modules with
      | .error e => .error e
      | .ok st₁ => p1Bundles mapping st₁ rest

/-- The alias-resolution walk: follow indirection targets, keeping a
visited set and throwing on a revisit.  The walk stops when the next
target is null (a plain module) or undefined (a path outside the
indirections map).  Each continuing step visits a fresh key of the
indirections map, so a fuel of ind.length + 1 can never run out; the
fuel error is unreachable. -/
def walk (ind : List (String × Option String)) (moduleName : String) :
    List String → String → Option String → Nat → Except String String
  | _, real, none, _ => .ok real
  | _, _, some _, 0 => .error "fuel exhausted"
  | seen, _, some n, fuel + 1 =>
    if seen.contains n then
      .error ("alias loop while resolving " ++ moduleName)
    else
      walk ind moduleName (n :: seen) n ((aget ind n).bind id) fuel

/-- Body of the second loop of associationsForSimpleMapping: resolve
one indirection entry and record its bundle, falling back to the
resolved real path when that path is not itself in moduleToBundle. -/
def phase2Entry (ind : List (String × Option String))
    (m2b : List (String × String)) (e : String × Option String) :
    Except String (List (String × String)) :=
  match walk ind e.1 [e.1] e.1 e.2 (ind.length + 1) with
  | .error er => .error er
  | .ok real =>
    .ok (aset m2b e.1 (match aget m2b real with
      | some b => b
      | none => real))

/-- The second loop, over the indirections in insertion order. -/
def p2Entries (ind : List (String × Option String)) :
    List (String × String) → List (String × Option String) →
    Except String (List (String × String))
  | m2b, [] => .ok m2b
  | m2b, e :: rest =>
    match phase2Entry ind m2b e with
    | .error er => .error er
    | .ok m2b₁ => p2Entries ind m2b₁ rest

/-- associationsForSimpleMapping from associators.js: returns the pair
of bundleToModules and moduleToBundle, or throws on a duplicate bundle,
a conflicting module definition, or an alias loop. -/
def associationsForSimpleMapping (mapping : SimpleMapping) :
    Except String (List (String × List MEntry) × List (String × String)) :=
  match p1Bundles mapping ⟨[], [], []⟩ mapping with
  | .error e => .error e
  | .ok st =>
    match p2Entries st.ind st.m2b st.ind with
    | .error e => .error e
    | .ok m2b => .ok (st.b2m, m2b)

/-- One alternative of the SimpleAssociator regex at position i of the
character list: .js at the very end; index.js covering the whole rest
(the anchor case, i = 0) or preceded by a slash; or any non-newline
character followed by one or more slashes reaching the end.  Returns
the match length.  Alternatives are tried in the regex's order. -/
def matchAt (cs : List Char) (i : Nat) : Option Nat :=
  let rest := cs.drop i
  if rest = ['.', 'j', 's'] then some 3
  else if i = 0 ∧ rest = "index.js".toList then some 8
  else if rest = "/index.js".toList then some 9
  else
    match rest with
    | c :: r =>
      if c ≠ '\n' ∧ r ≠ [] ∧ r.all (· == '/') then some (r.length + 1) else none
    | [] => none

/-- modulePath.replace(<suffix regex>, ''): remove the leftmost match,
if any. -/
def simpleStrip (p : String) : String :=
  let cs := p.toList
  match (List.range (cs.length + 1)).findSome?
      (fun i => (matchAt cs i).map (fun len => (i, len))) with
  | some (i, len) => String.mk (cs.take i ++ cs.drop (i + len))
  | none => p

/-- The three Associator variants.  The static variant owns its
fallback (chain of responsibility); construction defaults the fallback
to the identity associator. -/
inductive Associator where
  | identity
  | simple
  | static (pmm : List (String × List MEntry)) (mpm : List (String × String))
      (next : Associator)
deriving DecidableEq, Repr

/-- preferredPath of each variant: identity returns the path, simple
strips the conventional suffix, static consults moduleToBundle and
falls back to its next associator on a miss. -/
def Associator.preferredPath : Associator → String → String
  | .identity, p => p
  | .simple, p => simpleStrip p
  | .static _ mpm next, p =>
    match aget mpm p with
    | some b => b
    | none => next.preferredPath p

/-- associatedModulePaths of each variant: identity returns the
singleton, simple the three-way conventional bundle, static first
canonicalizes then consults packageModuleMap, falling back to its next
associator on a miss (the stored member lists may contain Alias
entries). -/
def Associator.associatedModulePaths : Associator → String → List MEntry
  | .identity, p => [.mod p]
  | .simple, p =>
    let s := simpleStrip p
    [.mod s, .mod (s ++ ".js"), .mod (s ++ "/index.js")]
  | .static pmm mpm next, p =>
    let q := (Associator.static pmm mpm next).preferredPath p
    match aget pmm q with
    | some l => l
    | none => next.associatedModulePaths q

/-- The character class [0-9A-Za-z]. -/
def isAsciiAlphanum (c : Char) : Bool :=
  ('0' ≤ c && c ≤ '9') || ('A' ≤ c && c ≤ 'Z') || ('a' ≤ c && c ≤ 'z')

/-- escapeNonAlphanumerics from server.js: every character outside
[0-9A-Za-z] and outside the exception set becomes a 4-hex-digit
unicode escape, built by padding the lowercase hex code with zeros and
keeping the last four digits (the model covers the basic multilingual
plane, where charCodeAt equals the code point). -/
def escapeNonAlphanumerics (text exceptions : String) : String :=
  String.join (text.toList.map (fun c =>
    if isAsciiAlphanum c then String.singleton c
    else if exceptions.toList.contains c then String.singleton c
    else
      let h := Nat.toDigits 16 c.toNat
      let padded := '0' :: '0' :: '0' :: h
      "\\u" ++ String.mk (padded.drop (padded.length - 4))))

/-- packagedDefine from server.js: wraps the module map in a call of
the JSONP callback; a null body becomes the literal null, a present
body is wrapped in a named function expression taking
(require, exports, module), where the name literal carries the escaped
path. -/
def packagedDefine (JSONPCallback : String) (moduleMap : List (String × Option String)) :
    String :=
  let content := moduleMap.foldl (fun acc pr =>
    let pathEsc := escapeNonAlphanumerics pr.1 "./-_"
    let piece :=
      match pr.2 with
      | none => "null"
      | some body =>
        let nl := "\"(module " ++ pathEsc ++ ")\""
        "\x7b" ++ nl ++ ": function (require, exports, module) \x7b" ++ body ++
          "\x7d\x7d[" ++ nl ++ "]"
    acc ++ "\"" ++ pathEsc ++ "\": " ++ piece ++ ",\n") (JSONPCallback ++ "(\x7b")
  content ++ "\x7d);\n"

/-- The entry list fed to Object.fromEntries in Server.handle:
modulePaths.map((m, i) => [m, statuss[i] === 200 ? contents[i] : null]).
An index beyond the status array reads undefined, which is not 200.
The fetch collaborator's contract makes all three arrays the same
length. -/
def moduleMapPairs : List String → List Nat → List String → List (String × Option String)
  | [], _, _ => []
  | n :: ns, ss, cs =>
    (n, if ss.head? = some 200 then cs.head? else none) ::
      moduleMapPairs ns (ss.drop 1) (cs.drop 1)

/-- One step of statuss.reduce((m, s) => m && m === s ? m : undefined):
an undefined or zero accumulator stays undefined, a nonzero
accumulator survives only when equal to the next status. -/
def statusStep (m : Option Nat) (s : Nat) : Option Nat :=
  match m with
  | some v => if v ≠ 0 ∧ v = s then some v else none
  | none => none

/-- The status reduce of Server.handle over a nonempty status array
(reduce with no seed starts from the first element). -/
def jsStatusReduce (s0 : Nat) (rest : List Nat) : Option Nat :=
  rest.foldl statusStep (some s0)

/-- All statuses of the fan-out equal. -/
def allEqualB : List Nat → Bool
  | [] => true
  | s :: rest => rest.all (· == s)

/-- selectProperties(headers, HEADER_WHITELIST): keeps date,
last-modified, expires, cache-control and content-type; drops etag. -/
def whitelistHeaders (h : RHeaders) : RHeaders :=
  { h with etag := none }

/-- The HTTP methods Server.handle lets through to the bundle branch. -/
inductive Method where
  | get
  | head
deriving DecidableEq, Repr

/-- A response as far as the claims observe it: status, headers,
Location, and the body actually written (response.write runs only for
a truthy, hence nonempty, content). -/
structure HttpResp where
  status : Nat
  headers : RHeaders
  location : Option String
  content : Option String
deriving DecidableEq, Repr

/-- Outcome of the bundle branch: the response if one was emitted
(none models a thrown error propagating to next(err)), and whether the
GET fan-out was issued. -/
structure BundleOutcome where
  resp : Option HttpResp
  didGet : Bool
deriving DecidableEq, Repr

/-- The headers of the 307 redirect response. -/
def redirectHeaders : RHeaders :=
  { contentType := some "text/plain; charset=utf-8" }

/-- The redirect target before the query string is appended: re-prefix
the preferred path with its namespace, then either prepend the
configured base URI or relativize against the requesting path. -/
def locationFor (rootPath libraryPath : String) (baseURI : Option String)
    (path preferredPath : String) : String :=
  let loc :=
    if startsWithSlash preferredPath then rootPath ++ preferredPath.drop 1
    else libraryPath ++ preferredPath
  match baseURI with
  | some b => b ++ loc
  | none => relativePath path loc

/-- this._associator && this._associator.preferredPath ? ... : modulePath -/
def resolvedPreferredPath (assoc : Option Associator) (modulePath : String) : String :=
  match assoc with
  | some a => a.preferredPath modulePath
  | none => modulePath

/-- The member list the bundle branch fans out over. -/
def resolvedModulePaths (assoc : Option Associator) (modulePath : String) : List MEntry :=
  match assoc with
  | some a => a.associatedModulePaths modulePath
  | none => [.mod modulePath]

/-- Mapping the member entries to resource URIs calls startsWith on
each entry; an Alias instance has no string methods, so a bundle list
containing one throws a TypeError (none). -/
def entryKeys (l : List MEntry) : Option (List String) :=
  l.mapM (fun e =>
    match e with
    | .mod s => some s
    | .alias _ _ => none)

/-- Lines 360-368 of server.js: whitelist the headers, force the
content-type, recompute the status (304 when the reduced status was
304 or notModified holds against the final headers, else 200), and
write the body only for a truthy content. -/
def finalizeBundle (reqH : RqHeaders) (st : Option Nat) (hdrs : RHeaders)
    (content : Option String) (didGet : Bool) : BundleOutcome :=
  let hdrs := { whitelistHeaders hdrs with
    contentType := some "application/javascript; charset=utf-8" }
  let status := if st = some 304 ∨ notModified reqH hdrs then 304 else 200
  { resp := some
      { status
        headers := hdrs
        location := none
        content := match content with
          | some c => if c = "" then none else some c
          | none => none }
    didGet }

/-- The bundle branch of Server.handle (after callback validation),
lines 296-368 of server.js: redirect when the preferred path differs,
else fan out HEAD over the bundle members, merge the headers and reduce
the statuses, answer 304 when the reduced status is 304 or notModified
holds, answer headers-only for a HEAD request whose reduced status is
not 405, and otherwise fan out GET and package the bodies (for a GET
request).  The HEAD and GET fan-out results are inputs; an empty status
array makes the seedless reduce throw (resp none). -/
def handleBundle (rootPath libraryPath : String) (baseURI : Option String)
    (assoc : Option Associator) (method : Method) (cb : String)
    (path search modulePath : String) (reqH : RqHeaders)
    (headStatuss : List Nat) (headHeaderss : List RHeaders)
    (getStatuss : List Nat) (getHeaderss : List RHeaders)
    (getContents : List String) : BundleOutcome :=
  let preferred := resolvedPreferredPath assoc modulePath
  if preferred = modulePath then
    match entryKeys (resolvedModulePaths assoc modulePath) with
    | none => { resp := none, didGet := false }
    | some names =>
      match headStatuss with
      | [] => { resp := none, didGet := false }
      | s0 :: srest =>
        let st := jsStatusReduce s0 srest
        let hdrs := mergeHeaders headHeaderss
        if st = some 304 ∨ notModified reqH hdrs then
          finalizeBundle reqH (some 304) hdrs none false
        else if method = .head ∧ st ≠ some 405 then
          finalizeBundle reqH st hdrs none false
        else
          match getStatuss with
          | [] => { resp := none, didGet := true }
          | t0 :: trest =>
            let st := jsStatusReduce t0 trest
            let hdrs := mergeHeaders getHeaderss
            let content :=
              match method with
              | .get => some (packagedDefine cb
                  (jsFromEntries (moduleMapPairs names getStatuss getContents)))
              | .head => none
            finalizeBundle reqH st hdrs content true
  else
    { resp := some
        { status := 307
          headers := redirectHeaders
          location := some
            (locationFor rootPath libraryPath baseURI path preferred ++ search)
          content := some "307: Resource moved temporarily." }
      didGet := false }

/-- Lookup success means some stored pair carries the value. -/
theorem aget_mem {α : Type} {l : List (String × α)} {k : String} {v : α}
    (h : aget l k = some v) : ∃ p ∈ l, p.2 = v := by
  induction l with
  | nil => simp [aget] at h
  | cons hd tl ih =>
    obtain ⟨k1, v1⟩ := hd
    simp only [aget] at h
    by_cases hk : k1 == k
    · rw [if_pos hk] at h
      exact ⟨(k1, v1), List.mem_cons_self _ _, by simpa using h⟩
    · rw [if_neg hk] at h
      obtain ⟨p, hp, hv⟩ := ih h
      exact ⟨p, List.mem_cons_of_mem _ hp, hv⟩

/-- A member-to-bundle table is value-stable when every stored bundle
value either maps to itself or has no entry of its own.  Tables built
by associationsForSimpleMapping have this shape unless an alias source
reuses a bundle name. -/
abbrev tableIdem (mpm : List (String × String)) : Prop :=
  ∀ p ∈ mpm, aget mpm p.2 = some p.2 ∨ aget mpm p.2 = none

/-- preferredPath of a value-stable static associator with identity
fallback is idempotent. -/
theorem static_pref_idem (pmm : List (String × List MEntry))
    (mpm : List (String × String)) (h : tableIdem mpm) (p : String) :
    (Associator.static pmm mpm .identity).preferredPath
      ((Associator.static pmm mpm .identity).preferredPath p) =
    (Associator.static pmm mpm .identity).preferredPath p := by
  cases hq : aget mpm p with
  | none => simp [Associator.preferredPath, hq]
  | some b =>
    have hb : aget mpm b = some b ∨ aget mpm b = none := by
      obtain ⟨pr, hmem, hv⟩ := aget_mem hq
      have hpr := h pr hmem
      rwa [hv] at hpr
    rcases hb with hb | hb <;> simp [Associator.preferredPath, hq, hb]

/-- Claim C3: relativePath satisfies the four literal cases of the
spec, each result resolves against the from path (taken relative to
the site root, as the repository's test does with new URL) back to the
to path exactly, and none of the four results is the empty string. -/
theorem claim_C3_prop :
    (relativePath "a" "b" = "b" ∧ resolveRel "/a" (relativePath "a" "b") = "/b" ∧
      relativePath "a" "b" ≠ "") ∧
    (relativePath "a/" "a" = "../a" ∧ resolveRel "/a/" (relativePath "a/" "a") = "/a" ∧
      relativePath "a/" "a" ≠ "") ∧
    (relativePath "a" "a/" = "a/" ∧ resolveRel "/a" (relativePath "a" "a/") = "/a/" ∧
      relativePath "a" "a/" ≠ "") ∧
    (relativePath "a/b" "a/" = "./" ∧ resolveRel "/a/b" (relativePath "a/b" "a/") = "/a/" ∧
      relativePath "a/b" "a/" ≠ "") := by
  decide

/-- The not-modified condition exactly as claim C5 words it: the etag
values are equal, or the response last-modified parses and is at most
the request's if-modified-since. -/
def notModifiedSpec (req : RqHeaders) (res : RHeaders) : Prop :=
  (∃ s, req.etag = some s ∧ res.etag = some s) ∨
  (∃ lm ms, dateParse res.lastModified = some lm ∧
    dateParse req.ifModifiedSince = some ms ∧ lm ≤ ms)

/-- Claim C5 (counterexample): the claimed condition holds but
notModified is false, at two concrete inputs: equal empty etags (an
empty request etag is falsy in the code), and a last-modified equal to
the epoch with if-modified-since also the epoch (a parse result of 0
is falsy in the code). -/
theorem claim_C5_counterexample :
    (notModifiedSpec { etag := some "" } { etag := some "" } ∧
      notModified { etag := some "" } { etag := some "" } = false) ∧
    (notModifiedSpec { ifModifiedSince := .val 0 } { lastModified := .val 0 } ∧
      notModified { ifModifiedSince := .val 0 } { lastModified := .val 0 } = false) :=
  ⟨⟨Or.inl ⟨"", rfl, rfl⟩, rfl⟩, ⟨Or.inr ⟨0, 0, rfl, rfl, le_refl 0⟩, rfl⟩⟩

/-- Claim C5 (amended): notModified holds iff the request etag is
present, nonempty and exactly equal to the response etag, or the
response last-modified parses to a nonzero timestamp, the request
if-modified-since parses, and last-modified is at most
if-modified-since. -/
theorem claim_C5_prop (req : RqHeaders) (res : RHeaders) :
    notModified req res = true ↔
      ((∃ s, req.etag = some s ∧ s ≠ "" ∧ res.etag = some s) ∨
       (∃ lm ms, dateParse res.lastModified = some lm ∧ lm ≠ 0 ∧
         dateParse req.ifModifiedSince = some ms ∧ lm ≤ ms)) := by
  unfold notModified etagClauseHolds lmClauseHolds
  cases hre : req.etag with
  | none =>
    cases hlm : dateParse res.lastModified with
    | none => simp [hlm]
    | some lm =>
      cases hms : dateParse req.ifModifiedSince with
      | none => simp [hlm, hms]
      | some ms => simp [hlm, hms, bne_iff_ne, and_assoc]
  | some s =>
    cases hlm : dateParse res.lastModified with
    | none => simp [hlm, bne_iff_ne, beq_iff_eq, and_assoc]
    | some lm =>
      cases hms : dateParse req.ifModifiedSince with
      | none => simp [hlm, hms, bne_iff_ne, beq_iff_eq, and_assoc]
      | some ms => simp [hlm, hms, bne_iff_ne, beq_iff_eq, and_assoc]

/-- Claim C9: mergeHeaders only ever produces the four caching headers
(its etag and content-type are always absent), so when notModified
holds against merged headers it can only be through the
last-modified/if-modified-since clause; the etag clause is false. -/
theorem claim_C9_prop (hs : List RHeaders) (req : RqHeaders) :
    (mergeHeaders hs).etag = none ∧ (mergeHeaders hs).contentType = none ∧
    (notModified req (mergeHeaders hs) = true →
      etagClauseHolds req (mergeHeaders hs) = false ∧
      lmClauseHolds req (mergeHeaders hs) = true) := by
  have he : etagClauseHolds req (mergeHeaders hs) = false := by
    unfold etagClauseHolds
    cases hre : req.etag with
    | none => rfl
    | some s => simp [mergeHeaders]
  refine ⟨rfl, rfl, fun h => ⟨he, ?_⟩⟩
  unfold notModified at h
  rw [he] at h
  simpa using h

/-- Claim C9 (witness): at a singleton header list with a parseable
last-modified below the request's if-modified-since, notModified holds
on the merged headers and only through the last-modified clause. -/
theorem claim_C9_witness :
    notModified { ifModifiedSince := .val 2000 }
      (mergeHeaders [{ lastModified := .val 1000 }]) = true ∧
    etagClauseHolds { ifModifiedSince := .val 2000 }
      (mergeHeaders [{ lastModified := .val 1000 }]) = false ∧
    lmClauseHolds { ifModifiedSince := .val 2000 }
      (mergeHeaders [{ lastModified := .val 1000 }]) = true :=
  ⟨by decide,
    (claim_C9_prop [{ lastModified := .val 1000 }]
      { ifModifiedSince := .val 2000 }).2.2 (by decide)⟩

/-- Claim C4 (counterexample): preferredPath of the SimpleAssociator is
not idempotent: stripping "a.js.js" yields "a.js", stripping again
yields "a". -/
theorem claim_C4_counterexample :
    Associator.preferredPath .simple (Associator.preferredPath .simple "a.js.js") ≠
      Associator.preferredPath .simple "a.js.js" := by
  decide

/-- Claim C4 (amended): preferredPath is idempotent for the
IdentityAssociator at every path, and for every StaticAssociator with
identity fallback whose member-to-bundle table is value-stable (each
stored bundle value maps to itself or has no entry) — the shape
associationsForSimpleMapping produces unless an alias source reuses a
bundle name.  It is not idempotent for the SimpleAssociator. -/
theorem claim_C4_prop :
    (∀ p, Associator.preferredPath .identity
        (Associator.preferredPath .identity p) =
      Associator.preferredPath .identity p) ∧
    (∀ pmm mpm, tableIdem mpm → ∀ p,
      (Associator.static pmm mpm .identity).preferredPath
          ((Associator.static pmm mpm .identity).preferredPath p) =
        (Associator.static pmm mpm .identity).preferredPath p) :=
  ⟨fun _ => rfl, fun pmm mpm h p => static_pref_idem pmm mpm h p⟩

/-- The bundle-to-modules table of the worked example in the doc
comment of associationsForSimpleMapping. -/
def docExampleB2m : List (String × List MEntry) :=
  [("/module/path/1.js",
    [.mod "/module/path/1.js", .mod "/module/path/2.js",
     .mod "/module/path/3.js", .mod "/module/path/4.js"]),
   ("/module/path/4.js",
    [.mod "/module/path/3.js", .mod "/module/path/4.js",
     .mod "/module/path/5.js", .alias "/module" "/module/path/3.js"])]

/-- The module-to-bundle table associationsForSimpleMapping builds from
the worked example (verified below in the C2 development). -/
def docExampleM2b : List (String × String) :=
  [("/module/path/1.js", "/module/path/1.js"),
   ("/module/path/2.js", "/module/path/1.js"),
   ("/module/path/3.js", "/module/path/4.js"),
   ("/module/path/4.js", "/module/path/4.js"),
   ("/module/path/5.js", "/module/path/4.js"),
   ("/module", "/module/path/4.js")]

/-- Claim C4 (witness): the static half of the theorem applied to the
table of the worked example, at the alias path "/module". -/
theorem claim_C4_witness :
    tableIdem docExampleM2b ∧
    (Associator.static docExampleB2m docExampleM2b .identity).preferredPath
        ((Associator.static docExampleB2m docExampleM2b .identity).preferredPath
          "/module") =
      (Associator.static docExampleB2m docExampleM2b .identity).preferredPath
        "/module" :=
  ⟨by decide, claim_C4_prop.2 docExampleB2m docExampleM2b (by decide) "/module"⟩

/-- Claim C10 (counterexample): a mapping whose alias source reuses the
bundle name builds (without any alias cycle) a table on which
associatedModulePaths is not stable under canonicalization: member "m"
resolves to bundle "B" whose own entry points to "t", so the bundle
list for "m" and for its canonical path differ. -/
theorem claim_C10_counterexample :
    associationsForSimpleMapping [("B", [.mod "m", .alias "B" "t"])] =
      .ok ([("B", [.mod "m", .alias "B" "t"])], [("m", "B"), ("B", "t")]) ∧
    (Associator.static [("B", [.mod "m", .alias "B" "t"])]
        [("m", "B"), ("B", "t")] .identity).associatedModulePaths "m" ≠
      (Associator.static [("B", [.mod "m", .alias "B" "t"])]
          [("m", "B"), ("B", "t")] .identity).associatedModulePaths
        ((Associator.static [("B", [.mod "m", .alias "B" "t"])]
            [("m", "B"), ("B", "t")] .identity).preferredPath "m") := by
  exact ⟨rfl, by decide⟩

/-- Claim C10 (amended): for every StaticAssociator with identity
fallback whose member-to-bundle table is value-stable (the shape
associationsForSimpleMapping produces unless an alias source reuses a
bundle name), the bundle membership of any path equals the bundle
membership of its canonical path. -/
theorem claim_C10_prop (pmm : List (String × List MEntry))
    (mpm : List (String × String)) (h : tableIdem mpm) (p : String) :
    (Associator.static pmm mpm .identity).associatedModulePaths p =
      (Associator.static pmm mpm .identity).associatedModulePaths
        ((Associator.static pmm mpm .identity).preferredPath p) := by
  have hidem := static_pref_idem pmm mpm h p
  simp only [Associator.associatedModulePaths]
  rw [hidem]

/-- Claim C10 (witness): the theorem applied to the worked example's
table at the member path "/module/path/2.js". -/
theorem claim_C10_witness :
    tableIdem docExampleM2b ∧
    (Associator.static docExampleB2m docExampleM2b .identity).associatedModulePaths
        "/module/path/2.js" =
      (Associator.static docExampleB2m docExampleM2b .identity).associatedModulePaths
        ((Associator.static docExampleB2m docExampleM2b .identity).preferredPath
          "/module/path/2.js") :=
  ⟨by decide, claim_C10_prop docExampleB2m docExampleM2b (by decide)
    "/module/path/2.js"⟩

/-- Writing a fresh key appends the pair at the end. -/
theorem aset_fresh {α : Type} {l : List (String × α)} {k : String} {v : α}
    (h : ∀ p ∈ l, p.1 ≠ k) : aset l k v = l ++ [(k, v)] := by
  induction l with
  | nil => rfl
  | cons hd tl ih =>
    have hhd : hd.1 ≠ k := h hd (List.mem_cons_self _ _)
    obtain ⟨k1, v1⟩ := hd
    simp only [aset, beq_iff_eq]
    rw [if_neg hhd]
    rw [ih (fun p hp => h p (List.mem_cons_of_mem _ hp))]
    simp

/-- Inserting pairs with pairwise distinct fresh keys appends them in
order. -/
theorem foldl_aset_fresh {α : Type} :
    ∀ (l acc : List (String × α)),
      (∀ p ∈ l, ∀ q ∈ acc, q.1 ≠ p.1) → (l.map Prod.fst).Nodup →
      l.foldl (fun a pr => aset a pr.1 pr.2) acc = acc ++ l := by
  intro l
  induction l with
  | nil => intro acc _ _; simp
  | cons pr tl ih =>
    intro acc hfresh hnd
    simp only [List.foldl_cons]
    have h1 : aset acc pr.1 pr.2 = acc ++ [pr] := by
      rw [aset_fresh (fun q hq => hfresh pr (List.mem_cons_self _ _) q hq)]
    rw [h1]
    have hnd2 : (pr.1 :: tl.map Prod.fst).Nodup := by simpa using hnd
    have hnd' := List.nodup_cons.mp hnd2
    have h2 := ih (acc ++ [pr]) ?_ hnd'.2
    · rw [h2]; simp
    · intro p hp q hq
      rcases List.mem_append.mp hq with hq | hq
      · exact hfresh p (List.mem_cons_of_mem _ hp) q hq
      · have hqpr : q = pr := by simpa using hq
        subst hqpr
        intro hbad
        exact hnd'.1 (by
          rw [hbad]
          exact List.mem_map.mpr ⟨p, hp, rfl⟩)

/-- Object.fromEntries is the identity on entry lists with pairwise
distinct keys. -/
theorem jsFromEntries_nodup {α : Type} (l : List (String × α))
    (h : (l.map Prod.fst).Nodup) : jsFromEntries l = l := by
  have hmain := foldl_aset_fresh l [] (by simp) h
  simpa [jsFromEntries] using hmain

/-- The module-map pairs keep the member paths in order. -/
theorem moduleMapPairs_fst :
    ∀ (ns : List String) (ss : List Nat) (cs : List String),
      (moduleMapPairs ns ss cs).map Prod.fst = ns := by
  intro ns
  induction ns with
  | nil => intro ss cs; rfl
  | cons n ns ih => intro ss cs; simp [moduleMapPairs, ih]

/-- The i-th module-map pair carries the i-th member with its body
when the i-th GET status is 200 and null otherwise. -/
theorem moduleMapPairs_get :
    ∀ (ns : List String) (ss : List Nat) (cs : List String) (i : Nat)
      (n : String) (s : Nat) (c : String),
      ns.get? i = some n → ss.get? i = some s → cs.get? i = some c →
      (moduleMapPairs ns ss cs).get? i =
        some (n, if s = 200 then some c else none) := by
  intro ns
  induction ns with
  | nil => intro ss cs i n s c hn; simp at hn
  | cons n0 ns ih =>
    intro ss cs i n s c hn hs hc
    cases i with
    | zero =>
      cases ss with
      | nil => simp at hs
      | cons s0 ss =>
        cases cs with
        | nil => simp at hc
        | cons c0 cs =>
          simp only [List.get?] at hn hs hc
          obtain rfl : n0 = n := by simpa using hn
          obtain rfl : s0 = s := by simpa using hs
          obtain rfl : c0 = c := by simpa using hc
          simp [moduleMapPairs]
    | succ i =>
      cases ss with
      | nil => simp at hs
      | cons s0 ss =>
        cases cs with
        | nil => simp at hc
        | cons c0 cs =>
          simp only [List.get?] at hn hs hc
          simpa [moduleMapPairs] using ih ss cs i n s c hn hs hc

/-- Claim C7 (counterexample): a bundle with a duplicated member path
does not get one payload entry per member: the two members ["m", "m"]
with GET statuses [200, 404] collapse to a single entry, and the
member whose GET returned 200 does not appear with its body (the
duplicate's null wins). -/
theorem claim_C7_counterexample :
    jsFromEntries (moduleMapPairs ["m", "m"] [200, 404] ["x", "y"]) =
      [("m", none)] ∧
    (jsFromEntries (moduleMapPairs ["m", "m"] [200, 404] ["x", "y"])).length ≠
      (["m", "m"] : List String).length :=
  ⟨rfl, by decide⟩

/-- Claim C7 (amended): provided the bundle's member paths are pairwise
distinct, the packaged module map has exactly one entry per member, in
the Associator's member order, the i-th entry carrying the i-th body
for a 200 GET status and a literal null for any other status; and at
the literal 3-member bundle whose member 2 returns 404 the payload has
three entries, member 2 mapped to null, the others wrapped in a
function taking (require, exports, module).  (Duplicate member paths
collapse to one entry — first position, last value — and JS objects
would additionally reorder integer-like keys.) -/
theorem claim_C7_prop (names : List String) (ss : List Nat) (cs : List String)
    (hnd : names.Nodup) :
    jsFromEntries (moduleMapPairs names ss cs) = moduleMapPairs names ss cs ∧
    (moduleMapPairs names ss cs).map Prod.fst = names ∧
    (∀ i n s c, names.get? i = some n → ss.get? i = some s → cs.get? i = some c →
      (moduleMapPairs names ss cs).get? i =
        some (n, if s = 200 then some c else none)) ∧
    packagedDefine "require.define"
        (jsFromEntries
          (moduleMapPairs ["m1.js", "m2.js", "m3.js"] [200, 404, 200]
            ["b1", "b2", "b3"])) =
      "require.define(\x7b\"m1.js\": \x7b\"(module m1.js)\": function (require, exports, module) \x7bb1\x7d\x7d[\"(module m1.js)\"],\n\"m2.js\": null,\n\"m3.js\": \x7b\"(module m3.js)\": function (require, exports, module) \x7bb3\x7d\x7d[\"(module m3.js)\"],\n\x7d);\n" := by
  refine ⟨?_, moduleMapPairs_fst names ss cs,
    fun i n s c hn hs hc => moduleMapPairs_get names ss cs i n s c hn hs hc, rfl⟩
  exact jsFromEntries_nodup _ (by rw [moduleMapPairs_fst]; exact hnd)

/-- Claim C7 (witness): the theorem applied to the literal 3-member
bundle, every hypothesis discharged there. -/
theorem claim_C7_witness :
    (["m1.js", "m2.js", "m3.js"] : List String).Nodup ∧
    jsFromEntries
        (moduleMapPairs ["m1.js", "m2.js", "m3.js"] [200, 404, 200]
          ["b1", "b2", "b3"]) =
      moduleMapPairs ["m1.js", "m2.js", "m3.js"] [200, 404, 200]
        ["b1", "b2", "b3"] ∧
    (moduleMapPairs ["m1.js", "m2.js", "m3.js"] [200, 404, 200]
        ["b1", "b2", "b3"]).map Prod.fst = ["m1.js", "m2.js", "m3.js"] :=
  ⟨by decide,
    (claim_C7_prop ["m1.js", "m2.js", "m3.js"] [200, 404, 200]
      ["b1", "b2", "b3"] (by decide)).1,
    (claim_C7_prop ["m1.js", "m2.js", "m3.js"] [200, 404, 200]
      ["b1", "b2", "b3"] (by decide)).2.1⟩

/-- The all-parse collection fails exactly when some value is NaN. -/
theorem allVals_none {α : Type} :
    ∀ (l : List (Option α)), allVals l = none ↔ none ∈ l := by
  intro l
  induction l with
  | nil => simp [allVals]
  | cons x rest ih =>
    cases x with
    | none => simp [allVals]
    | some v => simp [allVals, Option.map_eq_none', ih]

/-- A successful all-parse collection is the list of values. -/
theorem allVals_some_eq {α : Type} :
    ∀ {l : List (Option α)} {vs : List α}, allVals l = some vs → l = vs.map some := by
  intro l
  induction l with
  | nil =>
    intro vs h
    simp only [allVals, Option.some.injEq] at h
    subst h
    rfl
  | cons x rest ih =>
    intro vs h
    cases x with
    | none => simp [allVals] at h
    | some v =>
      simp only [allVals] at h
      cases hrest : allVals rest with
      | none => rw [hrest] at h; simp at h
      | some ws =>
        rw [hrest] at h
        simp only [Option.map_some', Option.some.injEq] at h
        subst h
        simp [ih hrest]

/-- Math.max folded over a list: the result is the seed or a member,
bounds the seed from above and every member from above. -/
theorem foldl_max_spec {α : Type} [LinearOrder α] :
    ∀ (l : List α) (v : α),
      (l.foldl max v = v ∨ l.foldl max v ∈ l) ∧
      v ≤ l.foldl max v ∧ ∀ x ∈ l, x ≤ l.foldl max v := by
  intro l
  induction l with
  | nil => intro v; exact ⟨Or.inl rfl, le_refl v, by simp⟩
  | cons x rest ih =>
    intro v
    obtain ⟨hmem, hle, hub⟩ := ih (max v x)
    simp only [List.foldl_cons]
    refine ⟨?_, le_trans (le_max_left v x) hle, ?_⟩
    · rcases hmem with h | h
      · rw [h]
        rcases max_choice v x with h2 | h2
        · exact Or.inl h2
        · exact Or.inr (by rw [h2]; exact List.mem_cons_self _ _)
      · exact Or.inr (List.mem_cons_of_mem _ h)
    · intro y hy
      rcases List.mem_cons.mp hy with rfl | hy
      · exact le_trans (le_max_right v y) hle
      · exact hub y hy

/-- Math.min folded over a list: the result is the seed or a member,
bounds the seed from below and every member from below. -/
theorem foldl_min_spec {α : Type} [LinearOrder α] :
    ∀ (l : List α) (v : α),
      (l.foldl min v = v ∨ l.foldl min v ∈ l) ∧
      l.foldl min v ≤ v ∧ ∀ x ∈ l, l.foldl min v ≤ x := by
  intro l
  induction l with
  | nil => intro v; exact ⟨Or.inl rfl, le_refl v, by simp⟩
  | cons x rest ih =>
    intro v
    obtain ⟨hmem, hle, hlb⟩ := ih (min v x)
    simp only [List.foldl_cons]
    refine ⟨?_, le_trans hle (min_le_left v x), ?_⟩
    · rcases hmem with h | h
      · rw [h]
        rcases min_choice v x with h2 | h2
        · exact Or.inl h2
        · exact Or.inr (by rw [h2]; exact List.mem_cons_self _ _)
      · exact Or.inr (List.mem_cons_of_mem _ h)
    · intro y hy
      rcases List.mem_cons.mp hy with rfl | hy
      · exact le_trans hle (min_le_right v y)
      · exact hlb y hy

/-- When every value parses, the collection succeeds nonempty and the
folded maximum is one of the values and an upper bound of all. -/
theorem merged_max_spec {α : Type} [LinearOrder α] (l : List (Option α))
    (hne : l ≠ []) (hall : ∀ x ∈ l, x.isSome) :
    ∃ v vs, allVals l = some (v :: vs) ∧ some (vs.foldl max v) ∈ l ∧
      v ≤ vs.foldl max v ∧ ∀ t, some t ∈ l → t ≤ vs.foldl max v := by
  have hnone : ¬ none ∈ l := fun hmem => by simpa using hall none hmem
  cases hv : allVals l with
  | none => exact absurd ((allVals_none l).mp hv) hnone
  | some vs =>
    have hl := allVals_some_eq hv
    cases vs with
    | nil => exact absurd (by simpa using hl) hne
    | cons v ws =>
      obtain ⟨hmem, hseed, hub⟩ := foldl_max_spec ws v
      refine ⟨v, ws, rfl, ?_, hseed, ?_⟩
      · rcases hmem with h | h
        · rw [h, hl]; exact List.mem_map_of_mem some (List.mem_cons_self _ _)
        · rw [hl]; exact List.mem_map_of_mem some (List.mem_cons_of_mem _ h)
      · intro t ht
        rw [hl] at ht
        obtain ⟨a, ha, hat⟩ := List.mem_map.mp ht
        have hat2 : a = t := by simpa using hat
        subst hat2
        rcases List.mem_cons.mp ha with h | h
        · rw [h]; exact hseed
        · exact hub a h

/-- When every value parses, the collection succeeds nonempty and the
folded minimum is one of the values and a lower bound of all. -/
theorem merged_min_spec {α : Type} [LinearOrder α] (l : List (Option α))
    (hne : l ≠ []) (hall : ∀ x ∈ l, x.isSome) :
    ∃ v vs, allVals l = some (v :: vs) ∧ some (vs.foldl min v) ∈ l ∧
      vs.foldl min v ≤ v ∧ ∀ t, some t ∈ l → vs.foldl min v ≤ t := by
  have hnone : ¬ none ∈ l := fun hmem => by simpa using hall none hmem
  cases hv : allVals l with
  | none => exact absurd ((allVals_none l).mp hv) hnone
  | some vs =>
    have hl := allVals_some_eq hv
    cases vs with
    | nil => exact absurd (by simpa using hl) hne
    | cons v ws =>
      obtain ⟨hmem, hseed, hlb⟩ := foldl_min_spec ws v
      refine ⟨v, ws, rfl, ?_, hseed, ?_⟩
      · rcases hmem with h | h
        · rw [h, hl]; exact List.mem_map_of_mem some (List.mem_cons_self _ _)
        · rw [hl]; exact List.mem_map_of_mem some (List.mem_cons_of_mem _ h)
      · intro t ht
        rw [hl] at ht
        obtain ⟨a, ha, hat⟩ := List.mem_map.mp ht
        have hat2 : a = t := by simpa using hat
        subst hat2
        rcases List.mem_cons.mp ha with h | h
        · rw [h]; exact hseed
        · exact hlb a h

/-- A date value carrying whole seconds only, the resolution of every
HTTP date header (toUTCString output and IMF-fixdate both have no
sub-second part). -/
abbrev secondAligned (d : HDate) : Prop :=
  match d with
  | .val t => (1000 : Int) ∣ t
  | _ => True

/-- A parse result of a second-aligned header is divisible by 1000. -/
theorem secondAligned_parse {d : HDate} {t : Int} (h : secondAligned d)
    (hp : dateParse d = some t) : (1000 : Int) ∣ t := by
  cases d with
  | absent => simp [dateParse] at hp
  | bad => simp [dateParse] at hp
  | val u =>
    obtain rfl : u = t := by simpa [dateParse] using hp
    exact h

/-- Rendering a whole-second timestamp as an HTTP date is lossless. -/
theorem jsUTC_aligned {t : Int} (h : (1000 : Int) ∣ t) : jsUTC t = .val t := by
  obtain ⟨k, rfl⟩ := h
  unfold jsUTC
  rw [show (1000 * k).ediv 1000 = k from Int.mul_ediv_cancel_left k (by norm_num)]

instance secondAlignedDec : (d : HDate) → Decidable (secondAligned d)
  | .absent => isTrue trivial
  | .bad => isTrue trivial
  | .val t => inferInstanceAs (Decidable ((1000 : Int) ∣ t))

/-- Presence-iff and latest-value characterization of a max-merged
date header over a field of the input header sets. -/
theorem mergeMax_field_spec (hs : List RHeaders) (f : RHeaders → HDate)
    (hne : hs ≠ []) (hal : ∀ h ∈ hs, secondAligned (f h)) :
    ((mergeDateWith max (hs.map fun h => dateParse (f h)) ≠ .absent) ↔
      ∀ h ∈ hs, (dateParse (f h)).isSome) ∧
    ((∀ h ∈ hs, (dateParse (f h)).isSome) →
      ∃ m, mergeDateWith max (hs.map fun h => dateParse (f h)) = .val m ∧
        (∃ h ∈ hs, dateParse (f h) = some m) ∧
        ∀ h ∈ hs, ∀ t, dateParse (f h) = some t → t ≤ m) := by
  have hlne : (hs.map fun h => dateParse (f h)) ≠ [] := by
    simpa using hne
  have hvalue : (∀ h ∈ hs, (dateParse (f h)).isSome) →
      ∃ m, mergeDateWith max (hs.map fun h => dateParse (f h)) = .val m ∧
        (∃ h ∈ hs, dateParse (f h) = some m) ∧
        ∀ h ∈ hs, ∀ t, dateParse (f h) = some t → t ≤ m := by
    intro hall
    have hallx : ∀ x ∈ hs.map fun h => dateParse (f h), x.isSome := by
      intro x hx
      obtain ⟨h, hh, rfl⟩ := List.mem_map.mp hx
      exact hall h hh
    obtain ⟨v, vs, hav, hmem, hseed, hub⟩ :=
      merged_max_spec (hs.map fun h => dateParse (f h)) hlne hallx
    have hFal : (1000 : Int) ∣ vs.foldl max v := by
      obtain ⟨h, hh, hfh⟩ := List.mem_map.mp hmem
      exact secondAligned_parse (hal h hh) hfh
    refine ⟨vs.foldl max v, ?_, ?_, ?_⟩
    · unfold mergeDateWith
      rw [hav]
      exact jsUTC_aligned hFal
    · obtain ⟨h, hh, hfh⟩ := List.mem_map.mp hmem
      exact ⟨h, hh, hfh⟩
    · intro h hh t ht
      exact hub t (List.mem_map.mpr ⟨h, hh, ht⟩)
  refine ⟨⟨?_, ?_⟩, hvalue⟩
  · intro habs h hmem
    by_contra hnot
    have hnone : none ∈ hs.map fun h => dateParse (f h) :=
      List.mem_map.mpr ⟨h, hmem, Option.not_isSome_iff_eq_none.mp hnot⟩
    refine habs ?_
    unfold mergeDateWith
    rw [(allVals_none _).mpr hnone]
  · intro hall
    obtain ⟨m, hm, _, _⟩ := hvalue hall
    rw [hm]
    simp

/-- Presence-iff and earliest-value characterization of a min-merged
date header over a field of the input header sets. -/
theorem mergeMin_field_spec (hs : List RHeaders) (f : RHeaders → HDate)
    (hne : hs ≠ []) (hal : ∀ h ∈ hs, secondAligned (f h)) :
    ((mergeDateWith min (hs.map fun h => dateParse (f h)) ≠ .absent) ↔
      ∀ h ∈ hs, (dateParse (f h)).isSome) ∧
    ((∀ h ∈ hs, (dateParse (f h)).isSome) →
      ∃ m, mergeDateWith min (hs.map fun h => dateParse (f h)) = .val m ∧
        (∃ h ∈ hs, dateParse (f h) = some m) ∧
        ∀ h ∈ hs, ∀ t, dateParse (f h) = some t → m ≤ t) := by
  have hlne : (hs.map fun h => dateParse (f h)) ≠ [] := by
    simpa using hne
  have hvalue : (∀ h ∈ hs, (dateParse (f h)).isSome) →
      ∃ m, mergeDateWith min (hs.map fun h => dateParse (f h)) = .val m ∧
        (∃ h ∈ hs, dateParse (f h) = some m) ∧
        ∀ h ∈ hs, ∀ t, dateParse (f h) = some t → m ≤ t := by
    intro hall
    have hallx : ∀ x ∈ hs.map fun h => dateParse (f h), x.isSome := by
      intro x hx
      obtain ⟨h, hh, rfl⟩ := List.mem_map.mp hx
      exact hall h hh
    obtain ⟨v, vs, hav, hmem, hseed, hlb⟩ :=
      merged_min_spec (hs.map fun h => dateParse (f h)) hlne hallx
    have hFal : (1000 : Int) ∣ vs.foldl min v := by
      obtain ⟨h, hh, hfh⟩ := List.mem_map.mp hmem
      exact secondAligned_parse (hal h hh) hfh
    refine ⟨vs.foldl min v, ?_, ?_, ?_⟩
    · unfold mergeDateWith
      rw [hav]
      exact jsUTC_aligned hFal
    · obtain ⟨h, hh, hfh⟩ := List.mem_map.mp hmem
      exact ⟨h, hh, hfh⟩
    · intro h hh t ht
      exact hlb t (List.mem_map.mpr ⟨h, hh, ht⟩)
  refine ⟨⟨?_, ?_⟩, hvalue⟩
  · intro habs h hmem
    by_contra hnot
    have hnone : none ∈ hs.map fun h => dateParse (f h) :=
      List.mem_map.mpr ⟨h, hmem, Option.not_isSome_iff_eq_none.mp hnot⟩
    refine habs ?_
    unfold mergeDateWith
    rw [(allVals_none _).mpr hnone]
  · intro hall
    obtain ⟨m, hm, _, _⟩ := hvalue hall
    rw [hm]
    simp

/-- Presence-iff and smallest-value characterization of the merged
cache-control header. -/
theorem mergeCC_spec (hs : List RHeaders) (hne : hs ≠ []) :
    ((mergeCC (hs.map fun h => ccParse h.cacheControl) ≠ .absent) ↔
      ∀ h ∈ hs, (ccParse h.cacheControl).isSome) ∧
    ((∀ h ∈ hs, (ccParse h.cacheControl).isSome) →
      ∃ m, mergeCC (hs.map fun h => ccParse h.cacheControl) = .maxAge m ∧
        (∃ h ∈ hs, ccParse h.cacheControl = some m) ∧
        ∀ h ∈ hs, ∀ n, ccParse h.cacheControl = some n → m ≤ n) := by
  have hlne : (hs.map fun h => ccParse h.cacheControl) ≠ [] := by
    simpa using hne
  have hvalue : (∀ h ∈ hs, (ccParse h.cacheControl).isSome) →
      ∃ m, mergeCC (hs.map fun h => ccParse h.cacheControl) = .maxAge m ∧
        (∃ h ∈ hs, ccParse h.cacheControl = some m) ∧
        ∀ h ∈ hs, ∀ n, ccParse h.cacheControl = some n → m ≤ n := by
    intro hall
    have hallx : ∀ x ∈ hs.map fun h => ccParse h.cacheControl, x.isSome := by
      intro x hx
      obtain ⟨h, hh, rfl⟩ := List.mem_map.mp hx
      exact hall h hh
    obtain ⟨v, vs, hav, hmem, hseed, hlb⟩ :=
      merged_min_spec (hs.map fun h => ccParse h.cacheControl) hlne hallx
    refine ⟨vs.foldl min v, ?_, ?_, ?_⟩
    · unfold mergeCC
      rw [hav]
    · obtain ⟨h, hh, hfh⟩ := List.mem_map.mp hmem
      exact ⟨h, hh, hfh⟩
    · intro h hh n hn
      exact hlb n (List.mem_map.mpr ⟨h, hh, hn⟩)
  refine ⟨⟨?_, ?_⟩, hvalue⟩
  · intro habs h hmem
    by_contra hnot
    have hnone : none ∈ hs.map fun h => ccParse h.cacheControl :=
      List.mem_map.mpr ⟨h, hmem, Option.not_isSome_iff_eq_none.mp hnot⟩
    refine habs ?_
    unfold mergeCC
    rw [(allVals_none _).mpr hnone]
  · intro hall
    obtain ⟨m, hm, _, _⟩ := hvalue hall
    rw [hm]
    simp

/-- Claim C6: over a nonempty list of header sets carrying
whole-second dates (the resolution of every HTTP date), mergeHeaders
includes each of the four merged headers iff every input supplies a
parseable value for it, and then the merged date and last-modified are
the latest contributed value, the merged expires the earliest, and the
merged cache-control the smallest max-age; a header with any
unparseable contribution is absent from the result (never partially
merged). -/
theorem claim_C6_prop (hs : List RHeaders) (hne : hs ≠ [])
    (hal : ∀ h ∈ hs, secondAligned h.date ∧ secondAligned h.lastModified ∧
      secondAligned h.expires) :
    (((mergeHeaders hs).date ≠ .absent) ↔ ∀ h ∈ hs, (dateParse h.date).isSome) ∧
    ((∀ h ∈ hs, (dateParse h.date).isSome) →
      ∃ m, (mergeHeaders hs).date = .val m ∧
        (∃ h ∈ hs, dateParse h.date = some m) ∧
        ∀ h ∈ hs, ∀ t, dateParse h.date = some t → t ≤ m) ∧
    (((mergeHeaders hs).lastModified ≠ .absent) ↔
      ∀ h ∈ hs, (dateParse h.lastModified).isSome) ∧
    ((∀ h ∈ hs, (dateParse h.lastModified).isSome) →
      ∃ m, (mergeHeaders hs).lastModified = .val m ∧
        (∃ h ∈ hs, dateParse h.lastModified = some m) ∧
        ∀ h ∈ hs, ∀ t, dateParse h.lastModified = some t → t ≤ m) ∧
    (((mergeHeaders hs).expires ≠ .absent) ↔
      ∀ h ∈ hs, (dateParse h.expires).isSome) ∧
    ((∀ h ∈ hs, (dateParse h.expires).isSome) →
      ∃ m, (mergeHeaders hs).expires = .val m ∧
        (∃ h ∈ hs, dateParse h.expires = some m) ∧
        ∀ h ∈ hs, ∀ t, dateParse h.expires = some t → m ≤ t) ∧
    (((mergeHeaders hs).cacheControl ≠ .absent) ↔
      ∀ h ∈ hs, (ccParse h.cacheControl).isSome) ∧
    ((∀ h ∈ hs, (ccParse h.cacheControl).isSome) →
      ∃ m, (mergeHeaders hs).cacheControl = .maxAge m ∧
        (∃ h ∈ hs, ccParse h.cacheControl = some m) ∧
        ∀ h ∈ hs, ∀ n, ccParse h.cacheControl = some n → m ≤ n) := by
  obtain ⟨hd1, hd2⟩ :=
    mergeMax_field_spec hs (fun h => h.date) hne (fun h hh => (hal h hh).1)
  obtain ⟨hl1, hl2⟩ :=
    mergeMax_field_spec hs (fun h => h.lastModified) hne
      (fun h hh => (hal h hh).2.1)
  obtain ⟨hx1, hx2⟩ :=
    mergeMin_field_spec hs (fun h => h.expires) hne
      (fun h hh => (hal h hh).2.2)
  obtain ⟨hc1, hc2⟩ := mergeCC_spec hs hne
  exact ⟨hd1, hd2, hl1, hl2, hx1, hx2, hc1, hc2⟩

/-- The two header sets the C6 witness merges. -/
def wtnH1 : RHeaders :=
  { date := .val 1000, lastModified := .val 5000, expires := .val 2000,
    cacheControl := .maxAge 60 }

/-- The second header set of the C6 witness. -/
def wtnH2 : RHeaders :=
  { date := .val 3000, lastModified := .val 4000, expires := .val 7000,
    cacheControl := .maxAge 30 }

/-- Claim C6 (witness): the theorem applied to two concrete header
sets with whole-second dates. -/
theorem claim_C6_witness :
    ([wtnH1, wtnH2] : List RHeaders) ≠ [] ∧
    (∀ h ∈ [wtnH1, wtnH2], secondAligned h.date ∧
      secondAligned h.lastModified ∧ secondAligned h.expires) ∧
    (((mergeHeaders [wtnH1, wtnH2]).date ≠ .absent) ↔
      ∀ h ∈ [wtnH1, wtnH2], (dateParse h.date).isSome) :=
  ⟨by decide, by decide,
    (claim_C6_prop [wtnH1, wtnH2] (by decide) (by decide)).1⟩

/-- A finalized bundle response is 304 or 200, never 307. -/
theorem finalizeBundle_not307 (reqH : RqHeaders) (st : Option Nat)
    (hdrs : RHeaders) (content : Option String) (dg : Bool) :
    (finalizeBundle reqH st hdrs content dg).resp.map HttpResp.status ≠
      some 307 := by
  simp only [finalizeBundle, Option.map_some']
  split <;> simp

/-- Claim C8: in the bundle branch (valid callback), the response is a
307 temporary redirect exactly when the associator's preferred path
differs from the resolved module path; the redirect then carries the
namespace-re-prefixed location with the original query string appended
unchanged, the fixed plain-text explanation body, and no GET fan-out
happens. -/
theorem claim_C8_prop (rootPath libraryPath : String) (baseURI : Option String)
    (assoc : Option Associator) (method : Method)
    (cb path search modulePath : String) (reqH : RqHeaders)
    (hS : List Nat) (hH : List RHeaders)
    (gS : List Nat) (gH : List RHeaders) (gC : List String) :
    ((handleBundle rootPath libraryPath baseURI assoc method cb path search
        modulePath reqH hS hH gS gH gC).resp.map HttpResp.status = some 307 ↔
      resolvedPreferredPath assoc modulePath ≠ modulePath) ∧
    (resolvedPreferredPath assoc modulePath ≠ modulePath →
      handleBundle rootPath libraryPath baseURI assoc method cb path search
          modulePath reqH hS hH gS gH gC =
        { resp := some
            { status := 307
              headers := redirectHeaders
              location := some (locationFor rootPath libraryPath baseURI path
                (resolvedPreferredPath assoc modulePath) ++ search)
              content := some "307: Resource moved temporarily." }
          didGet := false }) := by
  by_cases h : resolvedPreferredPath assoc modulePath = modulePath
  · have hnot307 : (handleBundle rootPath libraryPath baseURI assoc method cb
        path search modulePath reqH hS hH gS gH gC).resp.map HttpResp.status ≠
        some 307 := by
      simp only [handleBundle, if_pos h]
      cases hek : entryKeys (resolvedModulePaths assoc modulePath) with
      | none => simp
      | some names =>
        cases hS with
        | nil => simp
        | cons s0 srest =>
          simp only []
          split
          · exact finalizeBundle_not307 _ _ _ _ _
          · split
            · exact finalizeBundle_not307 _ _ _ _ _
            · cases gS with
              | nil => simp
              | cons t0 trest => exact finalizeBundle_not307 _ _ _ _ _
    exact ⟨⟨fun hst => absurd hst hnot307, fun hne => absurd h hne⟩,
      fun hne => absurd h hne⟩
  · refine ⟨⟨fun _ => h, fun _ => ?_⟩, fun _ => ?_⟩ <;>
      simp [handleBundle, if_neg h]

/-- Claim C8 (witness): the theorem at a concrete bundle request whose
module path "m" canonicalizes to "n"; the redirect location is the
relativized "n" with the query string "?callback=x&y=1" preserved. -/
theorem claim_C8_witness :
    resolvedPreferredPath (some (.static [] [("m", "n")] .identity)) "m" ≠ "m" ∧
    handleBundle "/root/" "/library/" none
        (some (.static [] [("m", "n")] .identity)) .get "x" "/library/m"
        "?callback=x&y=1" "m" {} [200] [{}] [200] [{}] ["body"] =
      { resp := some
          { status := 307
            headers := redirectHeaders
            location := some (locationFor "/root/" "/library/" none "/library/m"
              (resolvedPreferredPath (some (.static [] [("m", "n")] .identity))
                "m") ++ "?callback=x&y=1")
            content := some "307: Resource moved temporarily." }
        didGet := false } ∧
    locationFor "/root/" "/library/" none "/library/m"
        (resolvedPreferredPath (some (.static [] [("m", "n")] .identity)) "m") ++
      "?callback=x&y=1" = "n?callback=x&y=1" :=
  ⟨by decide,
    (claim_C8_prop "/root/" "/library/" none
      (some (.static [] [("m", "n")] .identity)) .get "x" "/library/m"
      "?callback=x&y=1" "m" {} [200] [{}] [200] [{}] ["body"]).2 (by decide),
    by decide⟩

/-- Folding the status reducer from an undefined accumulator stays
undefined. -/
theorem foldl_statusStep_none : ∀ (l : List Nat),
    l.foldl statusStep none = none := by
  intro l
  induction l with
  | nil => rfl
  | cons x rest ih => simpa [statusStep] using ih

/-- A status list with an element differing from the seed reduces to
undefined. -/
theorem jsStatusReduce_mismatch : ∀ (srest : List Nat) (s0 : Nat),
    (∃ y ∈ srest, y ≠ s0) → jsStatusReduce s0 srest = none := by
  intro srest
  induction srest with
  | nil =>
    intro s0 h
    obtain ⟨y, hy, _⟩ := h
    simp at hy
  | cons x rest ih =>
    intro s0 h
    show (x :: rest).foldl statusStep (some s0) = none
    simp only [List.foldl_cons]
    have hss : statusStep (some s0) x =
        if s0 ≠ 0 ∧ s0 = x then some s0 else none := rfl
    by_cases hc : s0 ≠ 0 ∧ s0 = x
    · rw [hss, if_pos hc]
      obtain ⟨y, hy, hne⟩ := h
      rcases List.mem_cons.mp hy with rfl | hy2
      · exact absurd hc.2.symm hne
      · exact ih s0 ⟨y, hy2, hne⟩
    · rw [hss, if_neg hc]
      exact foldl_statusStep_none rest

/-- A false all-equal check yields a member different from the head. -/
theorem allEqualB_false_exists {s0 : Nat} {srest : List Nat}
    (h : allEqualB (s0 :: srest) = false) : ∃ y ∈ srest, y ≠ s0 := by
  unfold allEqualB at h
  obtain ⟨y, hy, hne⟩ := List.all_eq_false.mp h
  exact ⟨y, hy, by simpa using hne⟩

/-- Claim C1 (counterexample): with disagreeing HEAD statuses
[200, 404] but a merged last-modified at or before the request's
if-modified-since, the bundle branch answers 304 without issuing the
GET fan-out — the statuses' disagreement does not prevent the 304. -/
theorem claim_C1_counterexample :
    allEqualB [200, 404] = false ∧
    (handleBundle "/root/" "/library/" none none .get "cb" "/library/m"
        "?callback=cb" "m" { ifModifiedSince := .val 1000 } [200, 404]
        [{ lastModified := .val 1000 }, { lastModified := .val 1000 }]
        [] [] []).didGet = false ∧
    (handleBundle "/root/" "/library/" none none .get "cb" "/library/m"
        "?callback=cb" "m" { ifModifiedSince := .val 1000 } [200, 404]
        [{ lastModified := .val 1000 }, { lastModified := .val 1000 }]
        [] [] []).resp.map HttpResp.status = some 304 := by
  refine ⟨rfl, rfl, ?_⟩
  decide

/-- Claim C1 (amended): when the per-member HEAD statuses are not all
equal, the seedless reduce yields the undefined status, so the
all-members-304 clause cannot fire; and a GET request whose merged
HEAD headers do not satisfy notModified proceeds to the GET fan-out.
(A 304 without the GET fan-out is still possible on a status mismatch
when notModified holds against the merged headers, and a HEAD request
answers from the merged HEAD results.) -/
theorem claim_C1_prop :
    (∀ (s0 : Nat) (srest : List Nat), allEqualB (s0 :: srest) = false →
      jsStatusReduce s0 srest = none) ∧
    (∀ (rootPath libraryPath : String) (baseURI : Option String)
        (assoc : Option Associator) (cb path search modulePath : String)
        (reqH : RqHeaders) (hS : List Nat) (hH : List RHeaders)
        (gS : List Nat) (gH : List RHeaders) (gC : List String),
      allEqualB hS = false →
      resolvedPreferredPath assoc modulePath = modulePath →
      notModified reqH (mergeHeaders hH) = false →
      entryKeys (resolvedModulePaths assoc modulePath) ≠ none →
      (handleBundle rootPath libraryPath baseURI assoc .get cb path search
        modulePath reqH hS hH gS gH gC).didGet = true) := by
  constructor
  · intro s0 srest h
    exact jsStatusReduce_mismatch srest s0 (allEqualB_false_exists h)
  · intro rootPath libraryPath baseURI assoc cb path search modulePath reqH
      hS hH gS gH gC hall hpref hnm hek
    cases hS with
    | nil => simp [allEqualB] at hall
    | cons s0 srest =>
      have hred : jsStatusReduce s0 srest = none :=
        jsStatusReduce_mismatch srest s0 (allEqualB_false_exists hall)
      simp only [handleBundle, if_pos hpref]
      cases hekv : entryKeys (resolvedModulePaths assoc modulePath) with
      | none => exact absurd hekv hek
      | some names =>
        simp only []
        rw [if_neg (by simp [hred, hnm])]
        rw [if_neg (by simp)]
        cases gS with
        | nil => rfl
        | cons t0 trest => rfl

/-- Claim C1 (witness): the GET half of the theorem at disagreeing
statuses [200, 404] with headers that do not satisfy notModified: the
GET fan-out is issued. -/
theorem claim_C1_witness :
    allEqualB [200, 404] = false ∧
    (handleBundle "/root/" "/library/" none none .get "cb" "/library/m"
      "?callback=cb" "m" {} [200, 404] [{}, {}] [200, 200] [{}, {}]
      ["a", "b"]).didGet = true :=
  ⟨by decide,
    claim_C1_prop.2 "/root/" "/library/" none none "cb" "/library/m"
      "?callback=cb" "m" {} [200, 404] [{}, {}] [200, 200] [{}, {}]
      ["a", "b"] (by decide) (by decide) (by decide) (by decide)⟩

/-- Claim C2 (counterexample): the alias entries of this mapping form
exactly the non-cyclic chain a -> b -> c, construction succeeds, yet
preferredPath("a") is not "c": because "c" is itself a plain member of
bundle "B", the alias resolves to c's bundle. -/
theorem claim_C2_counterexample :
    associationsForSimpleMapping
        [("B", [.mod "c", .alias "a" "b", .alias "b" "c"])] =
      .ok ([("B", [.mod "c", .alias "a" "b", .alias "b" "c"])],
        [("c", "B"), ("a", "B"), ("b", "B")]) ∧
    (Associator.static [("B", [.mod "c", .alias "a" "b", .alias "b" "c"])]
        [("c", "B"), ("a", "B"), ("b", "B")] .identity).preferredPath "a" =
      "B" ∧
    ("B" : String) ≠ "c" :=
  ⟨rfl, rfl, by decide⟩

/-- Claim C2 (amended): for pairwise distinct paths a, b, c and any
bundle key, a mapping whose entries are exactly the aliases a -> b and
b -> c builds a table on which preferredPath(a) = c (c is not a member
of any bundle there; when it is, the alias resolves to c's bundle
instead); and the cyclic mapping a -> b -> a makes
associationsForSimpleMapping itself throw the alias-loop error — the
cycle is detected during table construction via the visited set, before
any lookup. -/
theorem claim_C2_prop (k a b c : String) (hab : a ≠ b) (hbc : b ≠ c)
    (hac : a ≠ c) :
    associationsForSimpleMapping [(k, [.alias a b, .alias b c])] =
      .ok ([(k, [.alias a b, .alias b c])], [(a, c), (b, c)]) ∧
    (Associator.static [(k, [.alias a b, .alias b c])] [(a, c), (b, c)]
      .identity).preferredPath a = c ∧
    associationsForSimpleMapping [(k, [.alias a b, .alias b a])] =
      .error ("alias loop while resolving " ++ a) := by
  have hab2 : (a == b) = false := beq_eq_false_iff_ne.mpr hab
  have hba2 : (b == a) = false := beq_eq_false_iff_ne.mpr (Ne.symm hab)
  have hbc2 : (b == c) = false := beq_eq_false_iff_ne.mpr hbc
  have hcb2 : (c == b) = false := beq_eq_false_iff_ne.mpr (Ne.symm hbc)
  have hac2 : (a == c) = false := beq_eq_false_iff_ne.mpr hac
  have hca2 : (c == a) = false := beq_eq_false_iff_ne.mpr (Ne.symm hac)
  refine ⟨?_, ?_, ?_⟩
  · simp [associationsForSimpleMapping, p1Bundles, p1Modules, phase1Module,
      p2Entries, phase2Entry, walk, aget, aset, MEntry.name, MEntry.target,
      List.contains, List.elem, hab2, hba2, hbc2, hcb2, hac2, hca2]
  · simp [Associator.preferredPath, aget]
  · simp [associationsForSimpleMapping, p1Bundles, p1Modules, phase1Module,
      p2Entries, phase2Entry, walk, aget, aset, MEntry.name, MEntry.target,
      List.contains, List.elem, hab2, hba2, hbc2, hcb2, hac2, hca2]

/-- Claim C2 (witness): the theorem at the literal paths "a", "b", "c"
with bundle key "k". -/
theorem claim_C2_witness :
    ("a" : String) ≠ "b" ∧ ("b" : String) ≠ "c" ∧ ("a" : String) ≠ "c" ∧
    (associationsForSimpleMapping [("k", [.alias "a" "b", .alias "b" "c"])] =
      .ok ([("k", [.alias "a" "b", .alias "b" "c"])],
        [("a", "c"), ("b", "c")]) ∧
    (Associator.static [("k", [.alias "a" "b", .alias "b" "c"])]
      [("a", "c"), ("b", "c")] .identity).preferredPath "a" = "c" ∧
    associationsForSimpleMapping [("k", [.alias "a" "b", .alias "b" "a"])] =
      .error ("alias loop while resolving " ++ "a")) :=
  ⟨by decide, by decide, by decide,
    claim_C2_prop "k" "a" "b" "c" (by decide) (by decide) (by decide)⟩
